import Mathlib

/-!
Verification of the `stringvec` utility class (src/stringvec.h).

`std::string` is modelled as `List Char` and the `stringvec` container
(a `std::vector<std::string>`) as `List (List Char)`.  A `std::size_t`
returned by a string search (`npos` = not found) is modelled as
`Option Nat`.  Operations that can hit C++ undefined behaviour
(erasing a non-dereferenceable iterator, the unchecked `operator[]`)
return an `Option` or a result type with an explicit
undefined-behaviour value, so that "defined and equal to ..." is a
provable statement.
-/

namespace stringvec

/-- Builds the `List Char` model of a `std::string` from a literal. -/
def str (s : String) : List Char := s.data

/-- The whitespace set of `stringvec::trim`: `" \t\v\r\n"` (no form feed). -/
def whitespace : List Char := [' ', '\t', Char.ofNat 11, '\r', '\n']

/-- Model of `std::string::find_first_not_of(set)`: the least index whose
character is not in `set`; `none` models `npos`. -/
def find_first_not_of (set : List Char) : List Char → Option Nat
  | [] => none
  | a :: s =>
    if set.contains a then (find_first_not_of set s).map (· + 1) else some 0

/-- Model of `std::string::find_last_not_of(set)`: the greatest index whose
character is not in `set`; `none` models `npos`. -/
def find_last_not_of (set : List Char) (s : List Char) : Option Nat :=
  (find_first_not_of set s.reverse).map (fun j => s.length - 1 - j)

/-- `stringvec::transform(func)`: `std::for_each` re-assigns every element
through `func`, in place. -/
def transform (func : List Char → List Char) (v : List (List Char)) :
    List (List Char) :=
  v.map func

/-- The per-element lambda of `stringvec::trim` (src/stringvec.h:423-430):
`start = s.find_first_not_of(ws); end = s.find_last_not_of(ws);
return start == end ? std::string() : s.substr(start, end - start + 1);`.
The two `size_t` results are `npos` together (both searches fail exactly on
all-whitespace strings), so in the `else` branch both are indices and
`substr(pos, count)` is `(s.drop pos).take count`; the catch-all match arm
is unreachable. -/
def trimStr (s : List Char) : List Char :=
  let start := find_first_not_of whitespace s
  let stop := find_last_not_of whitespace s
  if start = stop then []
  else
    match start, stop with
    | some b, some e => (s.drop b).take (e - b + 1)
    | _, _ => []

/-- `stringvec::trim`: `transform` with the trimming lambda. -/
def trim (v : List (List Char)) : List (List Char) :=
  transform trimStr v

/-- `stringvec::filter_remove(func)`: the `std::remove_if` + `erase` idiom
keeps, in their original order, exactly the elements `func` rejects. -/
def filter_remove (func : List Char → Bool) (v : List (List Char)) :
    List (List Char) :=
  v.filter (fun s => ! func s)

/-- `stringvec::filter_keep(func)`: `remove_if` with the pointwise negated
predicate `[func](s) { return !func(s); }`. -/
def filter_keep (func : List Char → Bool) (v : List (List Char)) :
    List (List Char) :=
  v.filter (fun s => ! (! func s))

/-- A character of the `\s` class of C++ ECMAScript regular expressions:
space, `\t`, `\n`, `\v`, `\f`, `\r`. -/
def isRegexSpace (c : Char) : Bool :=
  c == ' ' || c == '\t' || c == '\n' || c == Char.ofNat 11 ||
    c == Char.ofNat 12 || c == '\r'

/-- Model of the external matcher call
`std::regex_match(s, std::regex("^\s+$"))`: a whole-string match, and `\s+`
requires one or more whitespace characters. -/
def matchesWsPlus (s : List Char) : Bool :=
  ! s.isEmpty && s.all isRegexSpace

/-- `stringvec::filter_empty(keep_whitespace)` (src/stringvec.h:363-376):
with `keep_whitespace` it removes the elements with `s.empty()`; otherwise it
removes the elements matching the regex `^\s+$`. -/
def filter_empty (keep_whitespace : Bool) (v : List (List Char)) :
    List (List Char) :=
  if keep_whitespace then filter_remove (fun s => s.isEmpty) v
  else filter_remove matchesWsPlus v

/-- Model of `vec.erase(begin() + i)`: defined only when the iterator is
dereferenceable (`i < size`); erasing `end()` or beyond is C++ undefined
behaviour, modelled as `none`. -/
def vecErase (v : List (List Char)) (i : Nat) : Option (List (List Char)) :=
  if i < v.length then some (v.eraseIdx i) else none

/-- `stringvec::remove_first`: `vec.erase(begin())`. -/
def remove_first (v : List (List Char)) : Option (List (List Char)) :=
  vecErase v 0

/-- `stringvec::remove_last`: `vec.erase(end())` — the argument is the
past-the-end iterator, at index `size`. -/
def remove_last (v : List (List Char)) : Option (List (List Char)) :=
  vecErase v v.length

/-- `stringvec::remove_nth(pos)`: returns with the vector unchanged when
`begin() + pos >= end()` (value-wise, `pos ≥ size`), otherwise erases the
element at `pos` (a dereferenceable position). -/
def remove_nth (v : List (List Char)) (pos : Nat) :
    Option (List (List Char)) :=
  if v.length ≤ pos then some v else vecErase v pos

/-- `stringvec::print(os, sep, keep_last_sep)`: the character sequence the
loop writes to the stream — each element, then `sep` unless the element is
the last one and `keep_last_sep` is false. -/
def print (sep : List Char) (keep_last_sep : Bool) :
    List (List Char) → List Char
  | [] => []
  | s :: rest =>
    s ++ (if rest.isEmpty && ! keep_last_sep then [] else sep) ++
      print sep keep_last_sep rest

/-- Does `d` occur at the head of `u`, character for character? -/
def delimMatch : List Char → List Char → Bool
  | [], _ => true
  | _ :: _, [] => false
  | d :: ds, a :: as => d == a && delimMatch ds as

/-- Least index of an occurrence of `d` in `s` (`none` when there is none);
an empty `d` occurs at index 0.  Building block for `std::string::find`. -/
def findSub (d : List Char) : List Char → Option Nat
  | [] => if delimMatch d [] then some 0 else none
  | a :: s =>
    if delimMatch d (a :: s) then some 0 else (findSub d s).map (· + 1)

/-- Model of `std::string::find(d, start)`: the least index `≥ start` of an
occurrence of `d`; `none` models `npos` (also when `start > size`). -/
def strFind (s d : List Char) (start : Nat) : Option Nat :=
  if start ≤ s.length then (findSub d (s.drop start)).map (· + start)
  else none

/-- The `while` loop of `stringvec::split` on one element, from offset
`start`: every occurrence `end` found emits `s.substr(start, end - start)`
and continues at `end + d.length`; when `find` fails, the tail
`s.substr(start)` is emitted.  `fuel` bounds the number of iterations:
`none` means the loop has not finished within `fuel` steps (with an empty
delimiter `start` never advances, so it never finishes). -/
def splitGo (s d : List Char) : Nat → Nat → Option (List (List Char))
  | _, 0 => none
  | start, fuel + 1 =>
    match strFind s d start with
    | some e =>
      (splitGo s d (e + d.length) fuel).map
        (fun rest => (s.drop start).take (e - start) :: rest)
    | none => some [s.drop start]

/-- `stringvec::split(d)`: each element is split by the loop `splitGo` and
the pieces, in the original element order, replace the vector.  `fuel`
bounds each element's loop. -/
def split (d : List Char) (fuel : Nat) :
    List (List Char) → Option (List (List Char))
  | [] => some []
  | s :: rest =>
    match splitGo s d 0 fuel, split d fuel rest with
    | some ps, some qs => some (ps ++ qs)
    | _, _ => none

/-- `split d` diverges on `v`: no iteration bound makes the loop finish. -/
def splitDiverges (v : List (List Char)) (d : List Char) : Prop :=
  ∀ fuel, split d fuel v = none

/-- `stringvec::find(func)`: the index of the first element satisfying
`func`; `v.length` models the `end()` sentinel. -/
def find (func : List Char → Bool) : List (List Char) → Nat
  | [] => 0
  | s :: rest => if func s then 0 else find func rest + 1

/-- `stringvec::rfind(func)` (src/stringvec.h:523-536): `std::find_if` over
`rbegin()..rend()` yields an index `j` into the reversed vector; on a hit
(`it != crend()`, i.e. `j < length`) the conversion `--(it.base())` gives
the forward index `length - 1 - j`; on a miss `vec.end()` is returned. -/
def rfind (func : List Char → Bool) (v : List (List Char)) : Nat :=
  if find func v.reverse < v.length then v.length - 1 - find func v.reverse
  else v.length

/-- Outcome of one indexed access, covering the spec's error taxonomy: a
value, a propagated out-of-bounds signal, or C++ undefined behaviour. -/
inductive AccessResult where
  | ok : List Char → AccessResult
  | indexError : AccessResult
  | undefinedBehavior : AccessResult
deriving DecidableEq

/-- `stringvec::operator[]` (the mutable and the const overload share the
body `return vec[index];`): `std::vector::operator[]` does no bounds check —
in range it yields the element, out of range the access is undefined
behaviour; it never raises an out-of-bounds signal. -/
def subscript (v : List (List Char)) (i : Nat) : AccessResult :=
  match v[i]? with
  | some s => .ok s
  | none => .undefinedBehavior

end stringvec

namespace stringvec

/-- `List.eraseIdx` removes exactly the element at the given index. -/
lemma eraseIdx_eq_take_drop (v : List (List Char)) (i : Nat) :
    v.eraseIdx i = v.take i ++ v.drop (i + 1) := by
  induction v generalizing i with
  | nil => simp [List.eraseIdx]
  | cons a w ih =>
    cases i with
    | zero => simp [List.eraseIdx]
    | succ n => simp [List.eraseIdx, ih]

/-- Claim C1: the code of `trim` is wrong on every element whose
non-whitespace content is a single character: `find_first_not_of` and
`find_last_not_of` then return the same index, the `start == end` test
(meant to catch the double-`npos` case) fires, and the element becomes
empty — here `"a"` and `" x "` both become `""`, while the claim (and the
method's own doc comment) require `"a"` and `"x"`. -/
theorem C1_trim_failing_input :
    trim [str "a", str " x ", str "ab"] = [[], [], str "ab"] ∧
      str "a" ≠ [] := by
  exact ⟨by decide, by decide⟩

/-- Claim C2: the code of `filter_empty` with `keep_whitespace = false`
filters by the regex `^\s+$`, which an empty string does not match (`+`
needs at least one character), so empty elements are kept — contradicting
the claim and the method's own doc comment; whitespace-only elements are
removed, and the `keep_whitespace = true` branch removes exactly the empty
elements. -/
theorem C2_filter_empty_failing_input :
    filter_empty false [[], str " ", str "a"] = [[], str "a"] ∧
      filter_empty true [[], str " ", str "a"] = [str " ", str "a"] := by
  exact ⟨by decide, by decide⟩

/-- Claim C3: `remove_first` on `{"a","b","c","d","e"}` does yield
`{"b","c","d","e"}`, but the subsequent `remove_last` executes
`vec.erase(end())`, erasing the past-the-end iterator — undefined behaviour
(modelled as `none`), not the removal of the last element the claim and the
repository's own `remove_test` expect; `remove_nth 1` on the expected
`{"b","c","d"}` would again behave as claimed. -/
theorem C3_remove_last_failing_input :
    remove_first [str "a", str "b", str "c", str "d", str "e"] =
        some [str "b", str "c", str "d", str "e"] ∧
      remove_last [str "b", str "c", str "d", str "e"] = none ∧
      remove_nth [str "b", str "c", str "d"] 1 = some [str "b", str "d"] := by
  refine ⟨by decide, by decide, by decide⟩

/-- Claim C7: `filter_keep func` equals `filter_remove` of the negated
predicate, and it keeps, in order, exactly the elements satisfying `func`. -/
theorem C7_filter_keep_eq_filter_remove_not (func : List Char → Bool)
    (v : List (List Char)) :
    filter_keep func v = filter_remove (fun s => ! func s) v ∧
      filter_keep func v = v.filter func := by
  refine ⟨rfl, ?_⟩
  simp [filter_keep]

/-- Claim C9: `remove_nth pos` removes exactly the element at `pos` when
`pos < length`, and is a silent no-op — the unchanged vector, not an
error — when `pos` is out of range. -/
theorem C9_remove_nth_spec (v : List (List Char)) (pos : Nat) :
    (pos < v.length →
        remove_nth v pos = some (v.take pos ++ v.drop (pos + 1))) ∧
      (v.length ≤ pos → remove_nth v pos = some v) := by
  constructor
  · intro h
    have hn : ¬ v.length ≤ pos := by omega
    simp [remove_nth, vecErase, hn, h, eraseIdx_eq_take_drop]
  · intro h
    simp [remove_nth, h]

/-- Claim C9 witness: at `{"a","b","c"}`, `remove_nth 1` removes `"b"` and
`remove_nth 7` returns the vector unchanged. -/
theorem C9_remove_nth_witness :
    remove_nth [str "a", str "b", str "c"] 1 =
        some ([str "a", str "b", str "c"].take 1 ++
          [str "a", str "b", str "c"].drop 2) ∧
      remove_nth [str "a", str "b", str "c"] 7 =
        some [str "a", str "b", str "c"] := by
  exact ⟨(C9_remove_nth_spec [str "a", str "b", str "c"] 1).1 (by decide),
    (C9_remove_nth_spec [str "a", str "b", str "c"] 7).2 (by decide)⟩

/-- A head occurrence of `d` needs at least `d.length` characters. -/
lemma delimMatch_length {d u : List Char} (h : delimMatch d u = true) :
    d.length ≤ u.length := by
  induction d generalizing u with
  | nil => simp
  | cons c ds ih =>
    cases u with
    | nil => simp [delimMatch] at h
    | cons a as =>
      simp only [delimMatch, Bool.and_eq_true] at h
      simpa using Nat.succ_le_succ (ih h.2)

/-- An occurrence index reported by `findSub` lies inside the string. -/
lemma findSub_le {d : List Char} :
    ∀ {s : List Char} {e : Nat}, findSub d s = some e → e ≤ s.length := by
  intro s
  induction s with
  | nil =>
    intro e h
    unfold findSub at h
    split at h
    · simp at h
      omega
    · simp at h
  | cons a s ih =>
    intro e h
    unfold findSub at h
    split at h
    · simp at h
      omega
    · cases hf : findSub d s with
      | none => rw [hf] at h; simp at h
      | some e2 =>
        rw [hf] at h
        simp only [Option.map_some', Option.some.injEq] at h
        have := ih hf
        simp only [List.length_cons]
        omega

/-- `findSub` reports positions where `d` actually occurs. -/
lemma findSub_match {d : List Char} :
    ∀ {s : List Char} {e : Nat},
      findSub d s = some e → delimMatch d (s.drop e) = true := by
  intro s
  induction s with
  | nil =>
    intro e h
    unfold findSub at h
    split at h
    next hc =>
      simp only [Option.some.injEq] at h
      subst h
      simpa using hc
    next => simp at h
  | cons a s ih =>
    intro e h
    unfold findSub at h
    split at h
    next hc =>
      simp only [Option.some.injEq] at h
      subst h
      simpa using hc
    next =>
      cases hf : findSub d s with
      | none => rw [hf] at h; simp at h
      | some e2 =>
        rw [hf] at h
        simp only [Option.map_some', Option.some.injEq] at h
        subst h
        simpa using ih hf

/-- A whole occurrence of `d` found by `findSub` fits inside the string. -/
lemma findSub_fits {d s : List Char} {e : Nat} (h : findSub d s = some e) :
    e + d.length ≤ s.length := by
  have h1 := findSub_le h
  have h2 := delimMatch_length (findSub_match h)
  rw [List.length_drop] at h2
  omega

/-- A hit of `std::string::find(d, start)` lies at or after `start`, and the
whole occurrence of `d` fits inside the string. -/
lemma strFind_some {s d : List Char} {start e : Nat}
    (h : strFind s d start = some e) :
    start ≤ e ∧ e + d.length ≤ s.length := by
  by_cases hs : start ≤ s.length
  · rw [strFind, if_pos hs] at h
    cases hf : findSub d (s.drop start) with
    | none => rw [hf] at h; simp at h
    | some e2 =>
      rw [hf] at h
      simp only [Option.map_some', Option.some.injEq] at h
      have h1 := findSub_fits hf
      rw [List.length_drop] at h1
      omega
  · rw [strFind, if_neg hs] at h
    simp at h

/-- With a non-empty delimiter the split loop finishes: each iteration
advances `start` by at least one, so `s.length - start` bounds the number of
iterations still needed. -/
lemma splitGo_isSome {s d : List Char} (hd : d ≠ []) :
    ∀ (fuel start : Nat), s.length - start < fuel →
      (splitGo s d start fuel).isSome := by
  intro fuel
  induction fuel with
  | zero => intro start h; omega
  | succ f ih =>
    intro start h
    cases he : strFind s d start with
    | none => simp [splitGo, he]
    | some e =>
      obtain ⟨h1, h2⟩ := strFind_some he
      have hd1 : 1 ≤ d.length := by
        cases d with
        | nil => exact absurd rfl hd
        | cons _ _ => simp
      have hrec := ih (e + d.length) (by omega)
      cases hro : splitGo s d (e + d.length) f with
      | none => rw [hro] at hrec; simp at hrec
      | some rest => simp [splitGo, he, hro]

/-- With a non-empty delimiter, `split` finishes once the per-element fuel
exceeds every element's length. -/
lemma split_isSome {d : List Char} (hd : d ≠ []) :
    ∀ (v : List (List Char)) (fuel : Nat),
      (∀ x ∈ v, x.length < fuel) → (split d fuel v).isSome := by
  intro v
  induction v with
  | nil => intro fuel _; simp [split]
  | cons s rest ih =>
    intro fuel h
    have h1 : (splitGo s d 0 fuel).isSome := by
      have := h s (by simp)
      exact splitGo_isSome hd fuel 0 (by omega)
    have h2 := ih fuel (fun x hx => h x (by simp [hx]))
    cases hg : splitGo s d 0 fuel with
    | none => rw [hg] at h1; simp at h1
    | some ps =>
      cases hs : split d fuel rest with
      | none => rw [hs] at h2; simp at h2
      | some qs => simp [split, hg, hs]

/-- The largest element length of the vector. -/
def maxLen (v : List (List Char)) : Nat :=
  v.foldr (fun s m => Nat.max s.length m) 0

/-- Every element's length is at most `maxLen`. -/
lemma length_le_maxLen {v : List (List Char)} {x : List Char} (hx : x ∈ v) :
    x.length ≤ maxLen v := by
  induction v with
  | nil => cases hx
  | cons s rest ih =>
    rcases List.mem_cons.mp hx with h | h
    · subst h
      exact Nat.le_max_left _ _
    · exact Nat.le_trans (ih h) (Nat.le_max_right _ _)

/-- An empty delimiter makes the split loop spin: `find("", start)` returns
`start` itself and `start + 0` never advances. -/
lemma splitGo_nil_delim (s : List Char) :
    ∀ (fuel start : Nat), start ≤ s.length → splitGo s [] start fuel = none := by
  intro fuel
  induction fuel with
  | zero => intro start _; rfl
  | succ f ih =>
    intro start h
    have hfs : findSub [] (s.drop start) = some 0 := by
      cases s.drop start <;> simp [findSub, delimMatch]
    have he : strFind s [] start = some start := by
      rw [strFind, if_pos h, hfs]
      simp
    simp [splitGo, he, ih start h]

/-- Claim C4 counterexample: on the one-element collection `{"a"}` the split
loop with the empty delimiter never finishes — `find("", start)` returns
`start`, the delimiter length 0 never advances `start`, and no iteration
bound suffices — so `split("")` does not terminate and the claim fails at
the empty delimiter. -/
theorem C4_empty_delimiter_diverges : splitDiverges [str "a"] [] := by
  intro fuel
  have h := splitGo_nil_delim (str "a") fuel 0 (by simp)
  simp [split, h]

/-- Claim C4 (amended): `split(delimiter)` terminates for every collection
and every non-empty delimiter — some iteration bound makes every element's
loop finish.  (As stated the claim is false: with the empty delimiter the
loop never terminates, see the counterexample.) -/
theorem C4_split_terminates (v : List (List Char)) (d : List Char)
    (hd : d ≠ []) : ∃ fuel, (split d fuel v).isSome :=
  ⟨maxLen v + 1, split_isSome hd v (maxLen v + 1)
    (fun _ hx => Nat.lt_succ_of_le (length_le_maxLen hx))⟩

/-- Claim C4 witness: splitting `{"a b"}` on `" "` terminates. -/
theorem C4_split_terminates_witness :
    ∃ fuel, (split (str " ") fuel [str "a b"]).isSome :=
  C4_split_terminates [str "a b"] (str " ") (by decide)

/-- A finished split loop emits at least one piece (the final
`emplace_back(s, start)` is unconditional). -/
lemma splitGo_length_pos {s d : List Char} {fuel start : Nat}
    {ps : List (List Char)} (h : splitGo s d start fuel = some ps) :
    1 ≤ ps.length := by
  cases fuel with
  | zero => simp [splitGo] at h
  | succ f =>
    cases he : strFind s d start with
    | none =>
      simp only [splitGo, he, Option.some.injEq] at h
      subst h
      simp
    | some e =>
      simp only [splitGo, he] at h
      cases hr : splitGo s d (e + d.length) f with
      | none => rw [hr] at h; simp at h
      | some rest =>
        rw [hr] at h
        simp only [Option.map_some', Option.some.injEq] at h
        subst h
        simp

/-- Claim C10: with a non-empty delimiter every original element yields at
least one piece, so a finished split never shrinks the collection. -/
theorem C10_split_length_ge (v : List (List Char)) (d : List Char)
    (fuel : Nat) (r : List (List Char)) (_hd : d ≠ [])
    (h : split d fuel v = some r) : v.length ≤ r.length := by
  induction v generalizing r with
  | nil =>
    simp only [split, Option.some.injEq] at h
    subst h
    simp
  | cons s rest ih =>
    unfold split at h
    cases hg : splitGo s d 0 fuel with
    | none => rw [hg] at h; simp at h
    | some ps =>
      rw [hg] at h
      cases hs : split d fuel rest with
      | none => rw [hs] at h; simp at h
      | some qs =>
        rw [hs] at h
        simp only [Option.some.injEq] at h
        subst h
        have h1 := splitGo_length_pos hg
        have h2 := ih qs hs
        simp only [List.length_cons, List.length_append]
        omega

/-- Claim C10 witness: splitting `{"a b"}` on `" "` yields `{"a","b"}`, and
1 ≤ 2. -/
theorem C10_split_length_ge_witness :
    ([str "a b"] : List (List Char)).length ≤
      ([str "a", str "b"] : List (List Char)).length :=
  C10_split_length_ge [str "a b"] (str " ") 4 [str "a", str "b"]
    (by decide) (by decide)

/-- Writing a one-element collection with no trailing separator writes just
the element. -/
lemma print_single (sep : List Char) (x : List Char) :
    print sep false [x] = x := by
  simp [print]

/-- Writing at least two elements with no trailing separator writes the
first element, the separator, then the rest. -/
lemma print_cons (sep : List Char) (x y : List Char)
    (rest : List (List Char)) :
    print sep false (x :: y :: rest) = x ++ sep ++ print sep false (y :: rest) := by
  simp [print]

/-- A single-character delimiter absent from `x` is not found in `x`. -/
lemma findSub_not_mem {c : Char} {x : List Char} (hc : c ∉ x) :
    findSub [c] x = none := by
  induction x with
  | nil => simp [findSub, delimMatch]
  | cons a x ih =>
    have hne : ¬ c = a := fun h => hc (by rw [h]; exact List.mem_cons_self a x)
    have hca : (c == a) = false := beq_eq_false_iff_ne.mpr hne
    have ih2 := ih (fun h => hc (List.mem_cons_of_mem a h))
    simp [findSub, delimMatch, hca, ih2]

/-- The first occurrence of the single-character delimiter `c` in
`x ++ c :: t` is at index `x.length` when `c` does not occur in `x`. -/
lemma findSub_append_cons {c : Char} {x : List Char} (t : List Char)
    (hc : c ∉ x) :
    findSub [c] (x ++ c :: t) = some x.length := by
  induction x with
  | nil => simp [findSub, delimMatch]
  | cons a x ih =>
    have hne : ¬ c = a := fun h => hc (by rw [h]; exact List.mem_cons_self a x)
    have hca : (c == a) = false := beq_eq_false_iff_ne.mpr hne
    have ih2 := ih (fun h => hc (List.mem_cons_of_mem a h))
    simp [findSub, delimMatch, hca, ih2]

/-- Dropping past a marked position in an append leaves the tail. -/
lemma drop_append_cons (x : List Char) (c : Char) (t : List Char) :
    (x ++ c :: t).drop (x.length + 1) = t := by
  induction x with
  | nil => simp
  | cons a x ih => simp [ih]

/-- Taking up to a marked position in an append leaves the head part. -/
lemma take_append_cons (x : List Char) (c : Char) (t : List Char) :
    (x ++ c :: t).take x.length = x := by
  induction x with
  | nil => rfl
  | cons a x ih => simp [ih]

/-- The split loop started at `start` behaves as the loop on the remaining
suffix started at 0: every later find, piece and restart is shifted by
`start`. -/
lemma splitGo_shift :
    ∀ (fuel : Nat) (s d : List Char) (start : Nat), start ≤ s.length →
      splitGo s d start fuel = splitGo (s.drop start) d 0 fuel := by
  intro fuel
  induction fuel with
  | zero => intro s d start _; rfl
  | succ f ih =>
    intro s d start h
    cases hf : findSub d (s.drop start) with
    | none =>
      have h1 : strFind s d start = none := by
        rw [strFind, if_pos h, hf]
        rfl
      have h2 : strFind (s.drop start) d 0 = none := by
        rw [strFind, if_pos (Nat.zero_le _), List.drop_zero, hf]
        rfl
      simp [splitGo, h1, h2]
    | some e1 =>
      have h1 : strFind s d start = some (e1 + start) := by
        rw [strFind, if_pos h, hf]
        rfl
      have h2 : strFind (s.drop start) d 0 = some e1 := by
        rw [strFind, if_pos (Nat.zero_le _), List.drop_zero, hf]
        simp
      have hfit : e1 + d.length ≤ (s.drop start).length := findSub_fits hf
      rw [List.length_drop] at hfit
      have hrecL := ih s d (e1 + start + d.length) (by omega)
      have hrecR := ih (s.drop start) d (e1 + d.length)
        (by rw [List.length_drop]; omega)
      have hdd : (s.drop start).drop (e1 + d.length) =
          s.drop (e1 + start + d.length) := by
        rw [List.drop_drop]
        congr 1
        omega
      rw [hdd] at hrecR
      simp only [splitGo, h1, h2, hrecL, hrecR, List.drop_zero,
        Nat.add_sub_cancel, Nat.sub_zero]

/-- Join–split round trip, element level: a non-empty sequence of strings
none of which contains the single-character separator `c` is recovered by
splitting its `c`-joined concatenation, with any iteration bound of at
least the number of strings. -/
lemma splitGo_join {c : Char} :
    ∀ (v : List (List Char)), v ≠ [] → (∀ x ∈ v, c ∉ x) →
      ∀ fuel, v.length ≤ fuel →
        splitGo (print [c] false v) [c] 0 fuel = some v := by
  intro v
  induction v with
  | nil => intro h; exact absurd rfl h
  | cons x rest ih =>
    intro _ hmem fuel hfuel
    obtain ⟨f, rfl⟩ : ∃ f, fuel = f + 1 :=
      ⟨fuel - 1, by simp at hfuel; omega⟩
    have hx : c ∉ x := hmem x (by simp)
    cases rest with
    | nil =>
      have hfind : strFind x [c] 0 = none := by
        rw [strFind, if_pos (Nat.zero_le _), List.drop_zero,
          findSub_not_mem hx]
        rfl
      simp [splitGo, print_single, hfind]
    | cons y rest2 =>
      have hS : print [c] false (x :: y :: rest2) =
          x ++ c :: print [c] false (y :: rest2) := by
        rw [print_cons]
        simp
      have hfind : strFind (print [c] false (x :: y :: rest2)) [c] 0 =
          some x.length := by
        rw [hS, strFind, if_pos (Nat.zero_le _), List.drop_zero,
          findSub_append_cons _ hx]
        simp
      have hlen : x.length + 1 ≤ (print [c] false (x :: y :: rest2)).length := by
        rw [hS]
        simp
      have hrest : splitGo (print [c] false (y :: rest2)) [c] 0 f =
          some (y :: rest2) :=
        ih (by simp) (fun z hz => hmem z (by simp [hz]))
          f (by simp at hfuel ⊢; omega)
      have hshift : splitGo (print [c] false (x :: y :: rest2)) [c]
            (x.length + [c].length) f = some (y :: rest2) := by
        have hsh := splitGo_shift f (print [c] false (x :: y :: rest2)) [c]
          (x.length + 1) hlen
        have hdr : (print [c] false (x :: y :: rest2)).drop (x.length + 1) =
            print [c] false (y :: rest2) := by
          rw [hS]
          exact drop_append_cons x c _
        simp only [List.length_cons, List.length_nil, Nat.zero_add]
        rw [hsh, hdr]
        exact hrest
      have hpiece : (print [c] false (x :: y :: rest2)).take x.length = x := by
        rw [hS]
        exact take_append_cons x c _
      simp only [splitGo, hfind, hshift, Option.map_some', Nat.sub_zero,
        List.drop_zero, hpiece]

/-- Claim C6 counterexample: the join–split round trip fails as stated —
with separator `"--"` and collection `{"a-","-b"}` (neither element
contains `"--"`) the written string `"a----b"` splits back into
`{"a","","b"}`; and with the empty collection the written string `""`
splits into `{""}`, not into the empty collection. -/
theorem C6_round_trip_counterexample :
    split (str "--") 8 [print (str "--") false [str "a-", str "-b"]] ≠
        some [str "a-", str "-b"] ∧
      split (str ",") 8 [print (str ",") false ([] : List (List Char))] ≠
        some ([] : List (List Char)) := by
  exact ⟨by decide, by decide⟩

/-- Claim C6 (amended): splitting `{"a,b,,c"}` on `","` yields
`["a","b","","c"]`; and for every non-empty collection and every
single-character separator occurring in no element, writing the elements
joined by that separator with `keep_trailing_separator = false` and
splitting the written string on the same separator reproduces the original
element sequence.  (As stated the claim is false for the empty collection
and for multi-character separators whose occurrences can straddle element
boundaries, see the counterexample.) -/
theorem C6_split_join_round_trip :
    split (str ",") 8 [str "a,b,,c"] =
        some [str "a", str "b", [], str "c"] ∧
      ∀ (v : List (List Char)) (c : Char), v ≠ [] → (∀ x ∈ v, c ∉ x) →
        split [c] v.length [print [c] false v] = some v := by
  constructor
  · decide
  · intro v c hne hmem
    have h := splitGo_join v hne hmem v.length (Nat.le_refl _)
    simp [split, h]

/-- Claim C6 witness: joining `{"ab","cd"}` with `','` and splitting the
written string `"ab,cd"` recovers `{"ab","cd"}`. -/
theorem C6_split_join_round_trip_witness :
    split [','] 2 [print [','] false [str "ab", str "cd"]] =
      some [str "ab", str "cd"] :=
  C6_split_join_round_trip.2 [str "ab", str "cd"] ',' (by decide) (by decide)

/-- A predicate with no match makes `find` return the sentinel. -/
lemma find_eq_length {func : List Char → Bool} {v : List (List Char)}
    (h : ∀ x ∈ v, func x = false) : find func v = v.length := by
  induction v with
  | nil => rfl
  | cons s rest ih =>
    have hs : func s = false := h s (by simp)
    have ih2 := ih (fun x hx => h x (by simp [hx]))
    simp [find, hs, ih2]

/-- `find` is a lower bound on every matching index. -/
lemma find_le_of_match {func : List Char → Bool} :
    ∀ {v : List (List Char)} {i : Nat} {x : List Char},
      v[i]? = some x → func x = true → find func v ≤ i := by
  intro v
  induction v with
  | nil => intro i x hx _; simp at hx
  | cons s rest ih =>
    intro i x hx hq
    cases i with
    | zero =>
      have hsx : s = x := by simpa using hx
      have hqs : func s = true := by rw [hsx]; exact hq
      simp [find, hqs]
    | succ j =>
      rw [List.getElem?_cons_succ] at hx
      have h2 := ih hx hq
      by_cases hs : func s = true
      · simp [find, hs]
      · simp only [find, if_neg hs]
        omega

/-- A non-sentinel `find` result points at a matching element. -/
lemma find_match {func : List Char → Bool} :
    ∀ {v : List (List Char)}, find func v < v.length →
      ∃ y, v[find func v]? = some y ∧ func y = true := by
  intro v
  induction v with
  | nil => intro h; simp [find] at h
  | cons s rest ih =>
    intro h
    by_cases hs : func s = true
    · exact ⟨s, by simp [find, hs], hs⟩
    · simp only [find, if_neg hs] at h ⊢
      simp only [List.length_cons] at h
      obtain ⟨y, hy, hqy⟩ := ih (by omega)
      refine ⟨y, ?_, hqy⟩
      rw [List.getElem?_cons_succ]
      exact hy

/-- A predicate with no match makes `rfind` return the `end` sentinel. -/
lemma rfind_eq_length {func : List Char → Bool} {v : List (List Char)}
    (h : ∀ x ∈ v, func x = false) : rfind func v = v.length := by
  have hrev : find func v.reverse = v.length := by
    rw [find_eq_length (fun x hx => h x (List.mem_reverse.mp hx)),
      List.length_reverse]
  rw [rfind, hrev, if_neg (lt_irrefl _)]

/-- Any match makes `rfind` return a matching forward position that bounds
every matching index from above. -/
lemma rfind_spec_of_match {func : List Char → Bool} {v : List (List Char)}
    {i : Nat} {x : List Char} (hx : v[i]? = some x) (hq : func x = true) :
    rfind func v < v.length ∧
      (∃ y, v[rfind func v]? = some y ∧ func y = true) ∧
      i ≤ rfind func v := by
  have hiL : i < v.length := (List.getElem?_eq_some.mp hx).1
  have hrx : v.reverse[v.length - 1 - i]? = some x := by
    rw [List.getElem?_reverse (by omega)]
    have heq : v.length - 1 - (v.length - 1 - i) = i := by omega
    rw [heq]
    exact hx
  have hjle : find func v.reverse ≤ v.length - 1 - i :=
    find_le_of_match hrx hq
  have hjlt : find func v.reverse < v.length := by omega
  have hrfind : rfind func v = v.length - 1 - find func v.reverse := by
    rw [rfind, if_pos hjlt]
  refine ⟨by omega, ?_, by omega⟩
  have hj2 : find func v.reverse < v.reverse.length := by
    rw [List.length_reverse]
    omega
  obtain ⟨y, hy, hqy⟩ := find_match hj2
  refine ⟨y, ?_, hqy⟩
  rw [List.getElem?_reverse (by omega)] at hy
  rw [hrfind]
  exact hy

/-- Two distinct matching indices force a predicate count of at least 2. -/
lemma two_matches_le_countP (q : List Char → Bool) :
    ∀ (v : List (List Char)) (i j : Nat) (x y : List Char),
      i < j → v[i]? = some x → q x = true → v[j]? = some y → q y = true →
      2 ≤ v.countP q := by
  intro v
  induction v with
  | nil => intro i j x y _ hx _ _ _; simp at hx
  | cons a rest ih =>
    intro i j x y hij hx hqx hy hqy
    cases j with
    | zero => omega
    | succ j2 =>
      rw [List.getElem?_cons_succ] at hy
      rw [List.countP_cons]
      cases i with
      | zero =>
        have hax : a = x := by simpa using hx
        have hqa : q a = true := by rw [hax]; exact hqx
        have hmem : y ∈ rest := List.mem_iff_getElem?.mpr ⟨j2, hy⟩
        have hpos : 0 < rest.countP q := List.countP_pos_iff.mpr ⟨y, hmem, hqy⟩
        rw [if_pos hqa]
        omega
      | succ i2 =>
        rw [List.getElem?_cons_succ] at hx
        have h2 := ih i2 j2 x y (by omega) hx hqx hy hqy
        omega

/-- Claim C8: `rfind` returns the forward position of the highest-index
element satisfying the predicate — the returned position is itself a match
and bounds every matching index from above — or the `end` sentinel
(`length`) when nothing matches; and for a literal value present exactly
once in the collection, `rfind` with the literal-equality predicate returns
the same position as `find`. -/
theorem C8_rfind_spec (v : List (List Char)) (func : List Char → Bool)
    (s : List Char) :
    ((∀ x ∈ v, func x = false) → rfind func v = v.length) ∧
      (∀ (i : Nat) (x : List Char), v[i]? = some x → func x = true →
        rfind func v < v.length ∧
          (∃ y, v[rfind func v]? = some y ∧ func y = true) ∧
          i ≤ rfind func v) ∧
      (v.countP (fun x => x == s) = 1 →
        rfind (fun x => x == s) v = find (fun x => x == s) v) := by
  refine ⟨fun h => rfind_eq_length h,
    fun _ _ hx hq => rfind_spec_of_match hx hq, ?_⟩
  intro h1
  have hpos : 0 < v.countP (fun x => x == s) := by omega
  obtain ⟨a, ha, hqa⟩ := List.countP_pos_iff.mp hpos
  obtain ⟨i, hi⟩ := List.mem_iff_getElem?.mp ha
  obtain ⟨hrlt, ⟨y, hy, hqy⟩, _⟩ :=
    @rfind_spec_of_match (fun x => x == s) v i a hi hqa
  have hfle : find (fun x => x == s) v ≤ rfind (fun x => x == s) v :=
    find_le_of_match hy hqy
  have hflt : find (fun x => x == s) v < v.length :=
    Nat.lt_of_le_of_lt hfle hrlt
  obtain ⟨z, hz, hqz⟩ := find_match hflt
  by_cases heq : find (fun x => x == s) v = rfind (fun x => x == s) v
  · exact heq.symm
  · exfalso
    have h2 := two_matches_le_countP (fun x => x == s) v _ _ z y
      (by omega) hz hqz hy hqy
    omega

/-- Claim C8 witness: on `{"a","b","a"}` the predicate matching `"z"` has no
match and `rfind` returns the sentinel 3, and `"b"` — present exactly
once — gives `rfind` = `find`. -/
theorem C8_rfind_spec_witness :
    rfind (fun x => x == str "z") [str "a", str "b", str "a"] = 3 ∧
      rfind (fun x => x == str "b") [str "a", str "b", str "a"] =
        find (fun x => x == str "b") [str "a", str "b", str "a"] := by
  constructor
  · have h := (C8_rfind_spec [str "a", str "b", str "a"]
      (fun x => x == str "z") (str "z")).1 (by decide)
    simpa using h
  · exact (C8_rfind_spec [str "a", str "b", str "a"]
      (fun x => x == str "b") (str "b")).2.2 (by decide)

/-- Claim C5 counterexample: on the collection `{"a"}`, access at index 1
(out of bounds) through the unchecked `operator[]` is undefined behaviour —
it is not the propagated `IndexError` the claim requires. -/
theorem C5_no_index_error :
    subscript [str "a"] 1 = AccessResult.undefinedBehavior ∧
      subscript [str "a"] 1 ≠ AccessResult.indexError := by
  exact ⟨by decide, by decide⟩

/-- Claim C5 (amended): indexed access by `operator[]` (the mutable and the
read-only overload share one body) returns the element at `index` whenever
`index < length`; whenever `index ≥ length` the access is unchecked
undefined behaviour — no `IndexError` is raised or propagated. -/
theorem C5_subscript_spec (v : List (List Char)) (i : Nat) :
    (∀ x, v[i]? = some x → subscript v i = AccessResult.ok x) ∧
      (v.length ≤ i → subscript v i = AccessResult.undefinedBehavior) := by
  constructor
  · intro x hx
    simp [subscript, hx]
  · intro h
    simp [subscript, List.getElem?_eq_none h]

/-- Claim C5 witness: in-bounds access on `{"a"}` at 0 yields `"a"`;
access on `{"b"}` at 3 is undefined behaviour. -/
theorem C5_subscript_spec_witness :
    subscript [str "a"] 0 = AccessResult.ok (str "a") ∧
      subscript [str "b"] 3 = AccessResult.undefinedBehavior :=
  ⟨(C5_subscript_spec [str "a"] 0).1 (str "a") (by decide),
    (C5_subscript_spec [str "b"] 3).2 (by decide)⟩

end stringvec
